/-
Verification of the Nessus CSV report generator's normalization and
aggregation pipeline (src/nessus.py, class NessusReportGenerator).

The pipeline is embedded shallowly: a pandas DataFrame row becomes a
`RawRecord` (each referenced cell an `Option String`, `none` standing for a
missing value / NaN), and the pipeline stages `load_data`, `clean_data`,
`generate_summary` and `create_detailed_report` become pure functions over
lists of records.  Library primitives used by the code are modelled by
their documented behaviour on the cleaned inputs they receive:
`astype(str)` turns NaN into the string "nan", `str.strip` trims
whitespace, `str.replace` is literal leftmost non-overlapping replacement,
`pd.to_numeric(errors='coerce')` parses a decimal literal and yields a
missing value on failure (including on the string "nan"), and the
multi-key `DataFrame.sort_values` is the stable sort by the lexicographic
key (numpy lexsort), embedded here with `List.mergeSort`, which is stable
for the same total preorder.
-/
import Mathlib

namespace NessusReport

/-- One raw CSV row, restricted to the columns the pipeline reads.
A `none` cell is a missing value (NaN in the frame). -/
structure RawRecord where
  host : Option String
  port : Option String
  protocol : Option String
  name : Option String
  risk : Option String
  cvss3 : Option String
  cvss2 : Option String
  cve : Option String
  synopsis : Option String
  description : Option String
  solution : Option String
deriving DecidableEq

/-- The fixed denylist of purely informational finding titles removed in
`load_data` (nessus.py lines 50-60). -/
def informationalFilters : List String :=
  ["Nessus Scan Information",
   "Traceroute Information",
   "Service Detection",
   "Nessus SYN scanner",
   "OS Identification",
   "Device Type",
   "Common Platform Enumeration",
   "Target Credential Status",
   "OS Security Patch Assessment Not Available"]

/-- `~df['Name'].isin(informational_filters)` (nessus.py line 65): a row is
kept unless its raw Name cell exactly equals a denylisted title; a missing
Name is never equal to any title, so it is kept. -/
def keepRow (r : RawRecord) : Bool :=
  match r.name with
  | some n => !(informationalFilters.contains n)
  | none => true

/-- `load_data` after the encoding loop: filter out the informational
rows (nessus.py line 65).  Encoding fallback concerns the byte stream and
is outside the record-level model. -/
def loadData (rows : List RawRecord) : List RawRecord :=
  rows.filter keepRow

/-- `astype(str)` on an object cell: a present string is unchanged, a
missing value (NaN) renders as the literal string "nan". -/
def pdStr : Option String → String
  | some s => s
  | none => "nan"

/-- Python `str.strip()`: drop leading and trailing whitespace. -/
def pyStrip (s : String) : String :=
  ⟨((s.data.dropWhile Char.isWhitespace).reverse.dropWhile
      Char.isWhitespace).reverse⟩

/-- `.str.replace('"', '')`: drop every double-quote character. -/
def stripQuotes (s : String) : String :=
  ⟨s.data.filter (fun c => c ≠ '"')⟩

/-- Text-column cleaning (nessus.py lines 84-89):
`astype(str).str.strip().str.replace('"', '')`. -/
def cleanText (x : Option String) : String :=
  stripQuotes (pyStrip (pdStr x))

/-- CVSS-column cleaning (nessus.py lines 104-106):
`astype(str).str.strip()` then `.replace('', None)`. -/
def cleanScore (x : Option String) : Option String :=
  let s := pyStrip (pdStr x)
  if s = "" then none else some s

/-- Digit string to a natural number. -/
def digitsVal (cs : List Char) : Nat :=
  cs.foldl (fun a c => 10 * a + (c.toNat - 48)) 0

/-- Unsigned decimal literal: digits with at most one decimal point and at
least one digit somewhere ("6", "6.5", "6.", ".5").  The value of
"ip.frac" is the rational (ip·10^|frac| + frac) / 10^|frac|, built with
`Rat.divInt` so that it evaluates by kernel reduction. -/
def parseUnsignedRat (cs : List Char) : Option ℚ :=
  let ip := cs.takeWhile Char.isDigit
  let rest := cs.dropWhile Char.isDigit
  match rest with
  | [] => if ip.isEmpty then none else some (Rat.divInt (digitsVal ip) 1)
  | '.' :: frac =>
    if frac.all Char.isDigit && !(ip.isEmpty && frac.isEmpty) then
      some (Rat.divInt (digitsVal ip * 10 ^ frac.length + digitsVal frac)
              (10 ^ frac.length))
    else none
  | _ => none

/-- Model of `pd.to_numeric(errors='coerce')` on one cleaned cell: parse an
optionally signed decimal literal; any other text (including "nan", the
rendering of a missing value) coerces to a missing value, never an error
and never zero. -/
def parseRat (s : String) : Option ℚ :=
  match s.data with
  | '-' :: cs => (parseUnsignedRat cs).map (fun q => -q)
  | '+' :: cs => parseUnsignedRat cs
  | cs => parseUnsignedRat cs

/-- `pd.to_numeric(errors='coerce')` lifted to a possibly missing cell. -/
def toNumeric : Option String → Option ℚ
  | none => none
  | some s => parseRat s

/-- One canonicalized finding: the cleaned row of the frame after
`clean_data`, together with the derived combined `CVSS_Score` column. -/
structure Finding where
  host : String
  port : Option String
  protocol : Option String
  name : String
  risk : String
  cvss3 : Option String
  cvss2 : Option String
  cve : String
  synopsis : String
  description : String
  solution : String
  cvss_score : Option ℚ
deriving DecidableEq

/-- The allowed severity labels, in source order (nessus.py line 96). -/
def validRisks : List String := ["Low", "Medium", "High", "Critical"]

/-- `dropna(how='all')` predicate: a row is dropped when every cell is
missing (nessus.py line 78). -/
def rowAllNa (r : RawRecord) : Bool :=
  r.host.isNone && r.port.isNone && r.protocol.isNone && r.name.isNone &&
  r.risk.isNone && r.cvss3.isNone && r.cvss2.isNone && r.cve.isNone &&
  r.synopsis.isNone && r.description.isNone && r.solution.isNone

/-- All per-row transformations of `clean_data` gathered on one row: text
cleaning (lines 84-89), Risk trimming (line 93), CVSS-cell cleaning
(lines 104-106), Host trimming (line 110), and the combined `CVSS_Score`
derivation — v3.0 parsed first, v2.0 parsed where v3.0 is missing or
unparseable (lines 113-124).  Each of these steps reads and writes only
its own row, so gathering them before the severity filter below computes
the same canonical set as the source's statement order. -/
def cleanRow (r : RawRecord) : Finding where
  host := pyStrip (pdStr r.host)
  port := r.port
  protocol := r.protocol
  name := cleanText r.name
  risk := pyStrip (pdStr r.risk)
  cvss3 := cleanScore r.cvss3
  cvss2 := cleanScore r.cvss2
  cve := cleanText r.cve
  synopsis := cleanText r.synopsis
  description := cleanText r.description
  solution := cleanText r.solution
  cvss_score :=
    match toNumeric (cleanScore r.cvss3) with
    | some q => some q
    | none => toNumeric (cleanScore r.cvss2)

/-- `clean_data` (nessus.py lines 75-124): drop all-empty rows, clean each
remaining row, and keep only the rows whose trimmed Risk is one of the
allowed labels (line 98). -/
def cleanData (rows : List RawRecord) : List Finding :=
  ((rows.filter (fun r => !rowAllNa r)).map cleanRow).filter
    (fun f => validRisks.contains f.risk)

/-- The ordered severity categories of the detailed report's sort
(nessus.py line 268). -/
def riskOrder : List String := ["Critical", "High", "Medium", "Low", "None"]

/-- The categorical code of a severity label: its index in `riskOrder`
(a label outside the list ranks after all of them, like a NaN category). -/
def sevRank (r : String) : Nat :=
  riskOrder.findIdx (· == r)

/-- Secondary sort key of the detailed report: `CVSS_Score` descending
with missing scores last (`ascending=False, na_position='last'`). -/
def cvssLe : Option ℚ → Option ℚ → Bool
  | none, none => true
  | none, some _ => false
  | some _, none => true
  | some x, some y => decide (y ≤ x)

/-- The total preorder of `sort_values(['Risk', 'CVSS_Score'],
ascending=[True, False], na_position='last')` (nessus.py line 271):
severity rank ascending, then CVSS score descending with missing scores
last. -/
def findingLe (a b : Finding) : Bool :=
  decide (sevRank a.risk < sevRank b.risk) ||
    (sevRank a.risk == sevRank b.risk && cvssLe a.cvss_score b.cvss_score)

/-- The detailed report's sort.  pandas sorts a multi-key `sort_values`
with numpy's stable lexsort; the stable sort by a total preorder is
unique, so it is embedded with the stable `List.mergeSort`. -/
def sortDetailed (fs : List Finding) : List Finding :=
  fs.mergeSort findingLe

/-- Pattern `'\n\n'` replaced by `' '`, leftmost non-overlapping, the
scan resuming after each replacement, exactly as Python `str.replace`. -/
def collapsePairs : List Char → List Char
  | [] => []
  | [c] => [c]
  | c :: d :: cs =>
    if c = '\n' ∧ d = '\n' then ' ' :: collapsePairs cs
    else c :: collapsePairs (d :: cs)

/-- Pattern `'\n'` replaced by `' '`: a single-character replacement is a
character-wise substitution. -/
def substBreaks (cs : List Char) : List Char :=
  cs.map (fun c => if c = '\n' then ' ' else c)

/-- `.str.replace('\n\n', ' ').str.replace('\n', ' ')` (nessus.py
lines 275 and 282). -/
def collapseBreaks (s : String) : String :=
  ⟨substBreaks (collapsePairs s.data)⟩

/-- Python slicing `x[:n]` by code points. -/
def strTake (s : String) (n : Nat) : String :=
  ⟨s.data.take n⟩

/-- `lambda x: x[:500] + "..." if len(str(x)) > 500 else x` (nessus.py
line 278); the cell is already a string, so `len(str(x)) = len(x)`. -/
def truncDescription (s : String) : String :=
  if s.length > 500 then strTake s 500 ++ "..." else s

/-- The per-row presentation cleanup of `create_detailed_report`
(nessus.py lines 274-282): collapse line breaks in Description and
Solution, then cap the Description at 500 characters. -/
def presentFinding (f : Finding) : Finding :=
  { f with
    description := truncDescription (collapseBreaks f.description)
    solution := collapseBreaks f.solution }

/-- `df[df['Risk'] != 'None']` (nessus.py line 252). -/
def securityFilter (fs : List Finding) : List Finding :=
  fs.filter (fun f => f.risk != "None")

/-- `create_detailed_report` (nessus.py lines 231-294) at the row level:
filter out 'None' risks, fall back to the current frame when that filter
leaves nothing (lines 254-256), sort (line 271), then apply the text
presentation cleanup (lines 274-282).  The subsequent merge of the two
CVSS display columns touches no field referenced by a claim. -/
def createDetailedReport (fs : List Finding) : List Finding :=
  let security := securityFilter fs
  let base := if security.isEmpty then fs else security
  (sortDetailed base).map presentFinding

/-- The word sequence of a character stream, words being the maximal runs
of characters that are neither a space nor a line break.  Used to state
that the line-break collapsing preserves word boundaries. -/
def notSep (c : Char) : Bool :=
  !(c = ' ' || c = '\n')

/-- Accumulator worker for `words`: `acc` holds the reversed current word. -/
def wordsAux : List Char → List Char → List (List Char)
  | [], acc => if acc.isEmpty then [] else [acc.reverse]
  | c :: cs, acc =>
    if notSep c then wordsAux cs (c :: acc)
    else if acc.isEmpty then wordsAux cs [] else acc.reverse :: wordsAux cs []

/-- The words of a character stream. -/
def words (cs : List Char) : List (List Char) :=
  wordsAux cs []

/-- The reading of C7's sentence in which each individual embedded line
break turns into one space of its own: a character-wise substitution. -/
def specBreakToSpace (s : String) : String :=
  ⟨s.data.map (fun c => if c = '\n' then ' ' else c)⟩

/-- `value_counts` of a column, as a key/count table: one entry per
distinct value with its number of occurrences.  Only the entries, not
their order, are consumed by the weighted risk score. -/
def uniqueKeys : List String → List String
  | [] => []
  | x :: xs => if x ∈ xs then uniqueKeys xs else x :: uniqueKeys xs

/-- The key/count table of `value_counts`. -/
def valueCounts (xs : List String) : List (String × Nat) :=
  (uniqueKeys xs).map (fun k => (k, xs.count k))

/-- `risk_weights` (nessus.py line 134) read through `.get(risk, 0)`:
the explicit 'None' entry and the default both give 0. -/
def riskWeight (r : String) : Nat :=
  if r = "Critical" then 4
  else if r = "High" then 3
  else if r = "Medium" then 2
  else if r = "Low" then 1
  else 0

/-- `total_risk_score` (nessus.py line 135): the weighted sum over the
severity histogram. -/
def riskScore (fs : List Finding) : Nat :=
  ((valueCounts (fs.map (·.risk))).map (fun kc => riskWeight kc.1 * kc.2)).sum

/-- The number of findings carrying a given severity label. -/
def sevCount (fs : List Finding) (l : String) : Nat :=
  fs.countP (fun f => f.risk == l)

/-- `nunique()` of a column. -/
def nunique (xs : List String) : Nat :=
  (uniqueKeys xs).length

/-- `total_hosts` (nessus.py line 141). -/
def totalHosts (fs : List Finding) : Nat :=
  nunique (fs.map (·.host))

/-- `hosts_with_issues` (nessus.py line 140). -/
def hostsWithIssues (fs : List Finding) : Nat :=
  nunique ((securityFilter fs).map (·.host))

/-- `total_findings` (nessus.py line 151). -/
def totalFindings (fs : List Finding) : Nat :=
  fs.length

/-- `security_findings` (nessus.py line 150). -/
def securityFindings (fs : List Finding) : Nat :=
  (securityFilter fs).length

/-! ### Concrete rows used to instantiate the theorems -/

/-- A surviving High-severity row (whitespace-padded label). -/
def recC1 : RawRecord where
  host := some "10.0.0.1"
  port := some "443"
  protocol := some "tcp"
  name := some "Weak Cipher Suites"
  risk := some " High "
  cvss3 := some "7.5"
  cvss2 := none
  cve := some "CVE-2020-0001"
  synopsis := some "syn"
  description := some "desc"
  solution := some "fix"

/-- A row whose newer score field is non-numeric and whose older score
field is "6.5". -/
def recC3 : RawRecord where
  host := some "10.0.0.2"
  port := some "22"
  protocol := some "tcp"
  name := some "Legacy SSH"
  risk := some "Medium"
  cvss3 := some "N/A"
  cvss2 := some "6.5"
  cve := none
  synopsis := none
  description := some "d"
  solution := some "s"

/-- A row the severity filter drops: its Risk label is "None". -/
def recC4 : RawRecord where
  host := some "10.0.0.3"
  port := some "80"
  protocol := some "tcp"
  name := some "HTTP Server Type"
  risk := some "None"
  cvss3 := none
  cvss2 := none
  cve := none
  synopsis := some "informational"
  description := some "d"
  solution := some "n/a"

/-- Another severity-filtered row, for the amended-claim witness. -/
def recC4w : RawRecord where
  host := some "10.0.0.4"
  port := some "8080"
  protocol := some "tcp"
  name := some "Proxy Banner"
  risk := some "Info"
  cvss3 := none
  cvss2 := none
  cve := none
  synopsis := none
  description := none
  solution := none

/-- A denylisted informational row carrying a severity label. -/
def recC6 : RawRecord where
  host := some "10.0.0.5"
  port := some "0"
  protocol := some "tcp"
  name := some "Nessus Scan Information"
  risk := some "High"
  cvss3 := none
  cvss2 := none
  cve := none
  synopsis := some "scan metadata"
  description := some "d"
  solution := some "s"

/-- A surviving row whose description holds two consecutive line
breaks. -/
def recC7 : RawRecord where
  host := some "10.0.0.6"
  port := some "445"
  protocol := some "tcp"
  name := some "SMB Signing"
  risk := some "High"
  cvss3 := some "5.3"
  cvss2 := none
  cve := none
  synopsis := some "syn"
  description := some "a\n\nb"
  solution := some "fix\nit"

/-- A finding used to instantiate the amended collapsing/truncation
theorem. -/
def fndC7 : Finding where
  host := "10.0.0.7"
  port := some "443"
  protocol := some "tcp"
  name := "TLS 1.0"
  risk := "Medium"
  cvss3 := none
  cvss2 := none
  cve := "nan"
  synopsis := "syn"
  description := "first line\nsecond line"
  solution := "upgrade\n\nnow"
  cvss_score := none

/-- A row whose optional free-text cells are all missing. -/
def recC10 : RawRecord where
  host := some "10.0.0.8"
  port := some "25"
  protocol := some "tcp"
  name := none
  risk := some "Low"
  cvss3 := none
  cvss2 := none
  cve := none
  synopsis := none
  description := none
  solution := none

/-! ### Shared lemmas about the pipeline -/

/-- Every canonical finding comes out of the severity filter, so its
Risk is one of the allowed labels. -/
theorem risk_mem_of_mem_cleanData {rows : List RawRecord} {f : Finding}
    (h : f ∈ cleanData rows) : f.risk ∈ validRisks := by
  simp only [cleanData, List.mem_filter] at h
  simpa using h.2

/-- Every canonical finding is the cleaned image of some surviving raw
row. -/
theorem exists_row_of_mem_cleanData {rows : List RawRecord} {f : Finding}
    (h : f ∈ cleanData rows) : ∃ r ∈ rows, f = cleanRow r := by
  simp only [cleanData, List.mem_filter, List.mem_map] at h
  obtain ⟨⟨r, hr, hf⟩, -⟩ := h
  exact ⟨r, hr.1, hf.symm⟩

/-- An allowed label is never the string "None". -/
theorem ne_none_of_mem_validRisks {s : String} (h : s ∈ validRisks) :
    s ≠ "None" := by
  simp only [validRisks, List.mem_cons, List.not_mem_nil, or_false] at h
  rcases h with h | h | h | h <;> subst h <;> decide

/-- On a canonical set the `Risk != 'None'` guard keeps every row. -/
theorem securityFilter_cleanData (rows : List RawRecord) :
    securityFilter (cleanData rows) = cleanData rows := by
  rw [securityFilter, List.filter_eq_self]
  intro f hf
  simpa using ne_none_of_mem_validRisks (risk_mem_of_mem_cleanData hf)

/-! ### The detailed report's sort order -/

theorem cvssLe_refl (v : Option ℚ) : cvssLe v v = true := by
  cases v with
  | none => rfl
  | some x => exact decide_eq_true (le_refl x)

theorem cvssLe_trans {a b c : Option ℚ} (hab : cvssLe a b = true)
    (hbc : cvssLe b c = true) : cvssLe a c = true := by
  match a, b, c with
  | none, none, none => rfl
  | none, none, some _ => exact hbc
  | none, some _, none => rfl
  | none, some _, some _ => simp [cvssLe] at hab
  | some _, none, none => rfl
  | some _, none, some _ => simp [cvssLe] at hbc
  | some _, some _, none => rfl
  | some x, some y, some z =>
    simp only [cvssLe, decide_eq_true_eq] at hab hbc ⊢
    exact le_trans hbc hab

theorem cvssLe_total (a b : Option ℚ) :
    (cvssLe a b || cvssLe b a) = true := by
  cases a <;> cases b <;>
    simp only [cvssLe, Bool.or_self, Bool.or_true, Bool.true_or,
      Bool.or_eq_true, decide_eq_true_eq]
  exact le_total _ _

/-- Unfolded meaning of the sort key comparison. -/
theorem findingLe_iff {a b : Finding} :
    findingLe a b = true ↔
      sevRank a.risk < sevRank b.risk ∨
        (sevRank a.risk = sevRank b.risk ∧ cvssLe a.cvss_score b.cvss_score = true) := by
  simp [findingLe, Bool.or_eq_true, Bool.and_eq_true, decide_eq_true_eq,
    beq_iff_eq]

theorem findingLe_trans (a b c : Finding) (hab : findingLe a b = true)
    (hbc : findingLe b c = true) : findingLe a c = true := by
  rw [findingLe_iff] at *
  rcases hab with h₁ | ⟨e₁, c₁⟩ <;> rcases hbc with h₂ | ⟨e₂, c₂⟩
  · exact Or.inl (lt_trans h₁ h₂)
  · exact Or.inl (e₂ ▸ h₁)
  · exact Or.inl (e₁ ▸ h₂)
  · exact Or.inr ⟨e₁.trans e₂, cvssLe_trans c₁ c₂⟩

theorem findingLe_total (a b : Finding) :
    (findingLe a b || findingLe b a) = true := by
  simp only [Bool.or_eq_true, findingLe_iff]
  rcases Nat.lt_trichotomy (sevRank a.risk) (sevRank b.risk) with h | h | h
  · exact Or.inl (Or.inl h)
  · rcases Bool.or_eq_true _ _ |>.mp (cvssLe_total a.cvss_score b.cvss_score)
      with hc | hc
    · exact Or.inl (Or.inr ⟨h, hc⟩)
    · exact Or.inr (Or.inr ⟨h.symm, hc⟩)
  · exact Or.inr (Or.inl h)

/-- `sortDetailed` permutes its input: the view contains exactly the
canonical findings. -/
theorem sortDetailed_perm (fs : List Finding) : (sortDetailed fs).Perm fs :=
  List.mergeSort_perm fs findingLe

/-- `sortDetailed` sorts by the lexicographic key. -/
theorem sortDetailed_sorted (fs : List Finding) :
    (sortDetailed fs).Pairwise (fun a b => findingLe a b = true) :=
  List.sorted_mergeSort findingLe_trans findingLe_total fs

/-- Stability of `sortDetailed`: a class of pairwise key-equivalent
findings is emitted in its original relative order. -/
theorem filter_sortDetailed (p : Finding → Bool)
    (hp : ∀ a b, p a = true → p b = true → findingLe a b = true)
    (l : List Finding) :
    (sortDetailed l).filter p = l.filter p := by
  have hpair : (l.filter p).Pairwise (fun a b => findingLe a b = true) := by
    refine List.pairwise_of_forall_mem_list ?_
    intro a ha b hb
    exact hp a b (List.mem_filter.mp ha).2 (List.mem_filter.mp hb).2
  have h1 : List.Sublist (l.filter p) (List.mergeSort l findingLe) :=
    List.sublist_mergeSort findingLe_trans findingLe_total hpair
      (List.filter_sublist l)
  have h2 := h1.filter p
  rw [List.filter_filter] at h2
  simp only [Bool.and_self] at h2
  have hlen : ((List.mergeSort l findingLe).filter p).length
      = (l.filter p).length :=
    ((List.mergeSort_perm l findingLe).filter p).length_eq
  exact (h2.eq_of_length hlen.symm).symm

theorem sortDetailed_nil : sortDetailed [] = [] :=
  List.mergeSort_of_sorted List.Pairwise.nil

theorem sortDetailed_singleton (f : Finding) : sortDetailed [f] = [f] :=
  List.mergeSort_of_sorted (List.pairwise_singleton _ f)

/-! ### Line-break collapsing preserves words -/

theorem notSep_space : notSep ' ' = false := by decide

theorem notSep_nl : notSep '\n' = false := by decide

theorem wordsAux_substBreaks (cs : List Char) :
    ∀ acc, wordsAux (substBreaks cs) acc = wordsAux cs acc := by
  induction cs with
  | nil => intro acc; rfl
  | cons c cs ih =>
    intro acc
    by_cases h : c = '\n'
    · subst h
      show wordsAux (' ' :: substBreaks cs) acc = wordsAux ('\n' :: cs) acc
      simp only [wordsAux, notSep_space, notSep_nl, Bool.false_eq_true,
        if_false, ih]
    · have hhead : substBreaks (c :: cs) = c :: substBreaks cs := by
        simp [substBreaks, h]
      rw [hhead]
      simp only [wordsAux, ih]

theorem wordsAux_collapsePairs :
    ∀ (cs : List Char) (acc : List Char),
      wordsAux (collapsePairs cs) acc = wordsAux cs acc
  | [], _ => rfl
  | [c], _ => rfl
  | c :: d :: cs, acc => by
    by_cases h : c = '\n' ∧ d = '\n'
    · obtain ⟨h1, h2⟩ := h
      subst h1; subst h2
      have hstep : collapsePairs ('\n' :: '\n' :: cs) = ' ' :: collapsePairs cs := by
        simp [collapsePairs]
      rw [hstep]
      simp only [wordsAux, notSep_space, notSep_nl, Bool.false_eq_true,
        if_false, List.isEmpty_nil, if_true,
        wordsAux_collapsePairs cs []]
    · have hstep : collapsePairs (c :: d :: cs) = c :: collapsePairs (d :: cs) := by
        simp only [collapsePairs, if_neg h]
      rw [hstep]
      simp only [wordsAux, wordsAux_collapsePairs (d :: cs)]
termination_by cs _ => cs.length

/-- Collapsing the line breaks never changes the word sequence. -/
theorem words_collapseBreaks (s : String) :
    words (collapseBreaks s).data = words s.data := by
  show words (substBreaks (collapsePairs s.data)) = words s.data
  unfold words
  rw [wordsAux_substBreaks, wordsAux_collapsePairs]

/-- No line break survives the collapsing. -/
theorem nl_not_mem_substBreaks (cs : List Char) : '\n' ∉ substBreaks cs := by
  intro h
  obtain ⟨a, -, ha⟩ := List.mem_map.mp h
  by_cases h' : a = '\n'
  · rw [if_pos h'] at ha
    exact absurd ha (by decide)
  · rw [if_neg h'] at ha
    exact h' ha

theorem nl_not_mem_collapseBreaks (s : String) :
    '\n' ∉ (collapseBreaks s).data :=
  nl_not_mem_substBreaks _

/-- Truncation introduces no line break either. -/
theorem nl_not_mem_truncDescription {s : String} (h : '\n' ∉ s.data) :
    '\n' ∉ (truncDescription s).data := by
  unfold truncDescription
  split
  · intro hmem
    rw [String.data_append] at hmem
    rcases List.mem_append.mp hmem with hm | hm
    · exact h (List.Sublist.mem hm (List.take_sublist 500 s.data))
    · exact absurd hm (by decide)
  · exact h

/-! ### `value_counts`-based sums -/

theorem mem_uniqueKeys {x : String} : ∀ {xs : List String},
    x ∈ uniqueKeys xs ↔ x ∈ xs
  | [] => Iff.rfl
  | y :: ys => by
    by_cases h : y ∈ ys
    · rw [uniqueKeys, if_pos h, mem_uniqueKeys]
      constructor
      · exact fun hx => List.mem_cons_of_mem y hx
      · intro hx
        rcases List.mem_cons.mp hx with rfl | hx
        · exact h
        · exact hx
    · rw [uniqueKeys, if_neg h]
      simp [mem_uniqueKeys, List.mem_cons]

theorem nodup_uniqueKeys : ∀ (xs : List String), (uniqueKeys xs).Nodup
  | [] => List.nodup_nil
  | y :: ys => by
    by_cases h : y ∈ ys
    · rw [uniqueKeys, if_pos h]
      exact nodup_uniqueKeys ys
    · rw [uniqueKeys, if_neg h]
      exact List.Nodup.cons (fun hy => h (mem_uniqueKeys.mp hy))
        (nodup_uniqueKeys ys)

theorem sum_map_ite_of_nodup (g : String → Nat) (x : String) :
    ∀ (ks : List String), ks.Nodup → x ∈ ks →
      ((ks.map (fun k => if k = x then g k else 0)).sum = g x)
  | [], _, hx => absurd hx (List.not_mem_nil x)
  | k :: ks, hnd, hx => by
    by_cases hkx : k = x
    · subst hkx
      have hnot : k ∉ ks := (List.nodup_cons.mp hnd).1
      have hzero : ((ks.map (fun j => if j = k then g j else 0)).sum = 0) := by
        rw [List.sum_eq_zero]
        intro n hn
        obtain ⟨j, hj, hjn⟩ := List.mem_map.mp hn
        have hne : j ≠ k := fun he => hnot (he ▸ hj)
        rw [if_neg hne] at hjn
        exact hjn.symm
      simp [hzero]
    · have hx' : x ∈ ks := by
        rcases List.mem_cons.mp hx with he | hm
        · exact absurd he.symm hkx
        · exact hm
      simp only [List.map_cons, List.sum_cons, if_neg hkx, Nat.zero_add]
      exact sum_map_ite_of_nodup g x ks (List.nodup_cons.mp hnd).2 hx'

theorem sum_map_count_cons (g : String → Nat) (x : String) (t : List String) :
    ∀ (ks : List String),
      (ks.map (fun k => g k * (x :: t).count k)).sum
        = (ks.map (fun k => g k * t.count k)).sum
          + (ks.map (fun k => if k = x then g k else 0)).sum
  | [] => rfl
  | k :: ks => by
    simp only [List.map_cons, List.sum_cons, sum_map_count_cons g x t ks]
    have hsplit : g k * ((x :: t).count k)
        = g k * t.count k + (if k = x then g k else 0) := by
      rw [List.count_cons]
      by_cases h : x = k
      · subst h
        simp [Nat.mul_add]
      · have h' : ¬(k = x) := fun hk => h hk.symm
        simp [h, h']
    rw [hsplit]
    omega

/-- The grouped weighted sum over the `value_counts` table equals the
ungrouped sum of the weights. -/
theorem sum_uniqueKeys_count (g : String → Nat) :
    ∀ (xs : List String),
      ((uniqueKeys xs).map (fun k => g k * xs.count k)).sum = (xs.map g).sum
  | [] => rfl
  | x :: xs => by
    by_cases h : x ∈ xs
    · rw [uniqueKeys, if_pos h, sum_map_count_cons,
        sum_uniqueKeys_count g xs,
        sum_map_ite_of_nodup g x (uniqueKeys xs) (nodup_uniqueKeys xs)
          (mem_uniqueKeys.mpr h)]
      simp [Nat.add_comm]
    · rw [uniqueKeys, if_neg h]
      simp only [List.map_cons, List.sum_cons, sum_map_count_cons,
        sum_uniqueKeys_count g xs]
      have hzero : ((uniqueKeys xs).map (fun k => if k = x then g k else 0)).sum = 0 := by
        rw [List.sum_eq_zero]
        intro n hn
        obtain ⟨j, hj, hjn⟩ := List.mem_map.mp hn
        have : j ≠ x := fun hjx => h (hjx ▸ mem_uniqueKeys.mp hj)
        rw [if_neg this] at hjn
        exact hjn.symm
      rw [List.count_cons_self, List.count_eq_zero_of_not_mem h, hzero]
      simp [Nat.add_comm]

/-- Specialized to the severity column: the weighted risk score is the
plain sum of per-row weights. -/
theorem riskScore_eq_sum_weights (fs : List Finding) :
    riskScore fs = (fs.map (fun f => riskWeight f.risk)).sum := by
  unfold riskScore valueCounts
  rw [List.map_map]
  have : ((fun kc : String × Nat => riskWeight kc.1 * kc.2) ∘
      fun k => (k, (fs.map (fun f => f.risk)).count k))
      = fun k => riskWeight k * (fs.map (fun f => f.risk)).count k := rfl
  rw [this, sum_uniqueKeys_count, List.map_map]
  rfl

/-- The plain sum of weights is the claimed weighted severity census:
every label other than the four allowed ones weighs 0. -/
theorem sum_weights_eq_census : ∀ (fs : List Finding),
    (fs.map (fun f => riskWeight f.risk)).sum
      = 4 * sevCount fs "Critical" + 3 * sevCount fs "High"
        + 2 * sevCount fs "Medium" + 1 * sevCount fs "Low"
  | [] => rfl
  | f :: fs => by
    simp only [List.map_cons, List.sum_cons, sum_weights_eq_census fs,
      sevCount, List.countP_cons]
    by_cases h1 : f.risk = "Critical"
    · simp [riskWeight, h1]; omega
    · by_cases h2 : f.risk = "High"
      · simp [riskWeight, h1, h2]; omega
      · by_cases h3 : f.risk = "Medium"
        · simp [riskWeight, h1, h2, h3]; omega
        · by_cases h4 : f.risk = "Low"
          · simp [riskWeight, h1, h2, h3, h4]; omega
          · simp [riskWeight, h1, h2, h3, h4]

/-- Every row of the detailed view is the presented image of a canonical
finding. -/
theorem mem_createDetailedReport {cs : List Finding} {f : Finding}
    (h : f ∈ createDetailedReport cs) : ∃ g ∈ cs, f = presentFinding g := by
  unfold createDetailedReport at h
  obtain ⟨g, hg, hfg⟩ := List.mem_map.mp h
  refine ⟨g, ?_, hfg.symm⟩
  rw [sortDetailed, List.mem_mergeSort] at hg
  by_cases hse : (securityFilter cs).isEmpty
  · rwa [if_pos hse] at hg
  · rw [if_neg hse] at hg
    exact (List.mem_filter.mp hg).1

/-! ### The claims -/

/-- C1: after canonicalization every finding's severity is one of
Critical, High, Medium, Low (`validRisks` is that set, in the source's
order); the same holds of every row of the detailed-findings view; and a
row whose trimmed severity label lies outside the set — including "None",
an unrecognized label, or a missing value, which renders as "nan" — never
yields a member of the canonical set. -/
theorem claim1_severity_invariant (rows : List RawRecord) (f : Finding) :
    (f ∈ cleanData (loadData rows) → f.risk ∈ validRisks)
    ∧ (f ∈ createDetailedReport (cleanData (loadData rows)) →
        f.risk ∈ validRisks)
    ∧ (∀ r : RawRecord, pyStrip (pdStr r.risk) ∉ validRisks →
        cleanRow r ∉ cleanData (loadData rows)) := by
  refine ⟨fun h => risk_mem_of_mem_cleanData h, fun h => ?_, fun r hr hmem => ?_⟩
  · obtain ⟨g, hg, rfl⟩ := mem_createDetailedReport h
    have hrisk : (presentFinding g).risk = g.risk := rfl
    rw [hrisk]
    exact risk_mem_of_mem_cleanData hg
  · exact hr (risk_mem_of_mem_cleanData hmem)

/-- Witness for C1 at a concrete input: the cleaned High row is in the
canonical set, so its severity is in the allowed set. -/
theorem claim1_witness : (cleanRow recC1).risk ∈ validRisks :=
  (claim1_severity_invariant [recC1] (cleanRow recC1)).1 (by decide)

/-- C2: the detailed view is exactly the stable sort of the canonical
set (then presented): it contains every canonical finding (permutation),
is ordered by severity rank (Critical before High before Medium before
Low) and, within equal rank, by CVSS score descending with score-less
findings last; and for every fixed severity and fixed (possibly absent)
score the findings carrying that key appear in their canonical relative
order. -/
theorem claim2_detailed_sorted_stable (rows : List RawRecord) :
    createDetailedReport (cleanData (loadData rows))
        = (sortDetailed (cleanData (loadData rows))).map presentFinding
    ∧ (sortDetailed (cleanData (loadData rows))).Perm
        (cleanData (loadData rows))
    ∧ (sortDetailed (cleanData (loadData rows))).Pairwise (fun a b =>
        sevRank a.risk < sevRank b.risk ∨
          (sevRank a.risk = sevRank b.risk ∧
            cvssLe a.cvss_score b.cvss_score = true))
    ∧ ∀ (s : String) (v : Option ℚ),
        (sortDetailed (cleanData (loadData rows))).filter
            (fun f => decide (f.risk = s ∧ f.cvss_score = v))
          = (cleanData (loadData rows)).filter
              (fun f => decide (f.risk = s ∧ f.cvss_score = v)) := by
  refine ⟨?_, sortDetailed_perm _, ?_, ?_⟩
  · simp only [createDetailedReport, securityFilter_cleanData, ite_self]
  · exact (sortDetailed_sorted _).imp (fun h => findingLe_iff.mp h)
  · intro s v
    apply filter_sortDetailed
    intro a b ha hb
    simp only [decide_eq_true_eq] at ha hb
    rw [findingLe_iff]
    exact Or.inr ⟨by rw [ha.1, hb.1], by rw [ha.2, hb.2]; exact cvssLe_refl v⟩

/-- C3: the derived `CVSS_Score` prefers the parsed v3.0 cell, falls back
to the parsed v2.0 cell, and is unset when neither parses; parsing never
raises (the functions are total) and never substitutes zero — in
particular a non-numeric v3.0 cell with v2.0 cell "6.5" derives 6.5. -/
theorem claim3_cvss_derivation (r : RawRecord) :
    (∀ q : ℚ, toNumeric (cleanScore r.cvss3) = some q →
        (cleanRow r).cvss_score = some q)
    ∧ (toNumeric (cleanScore r.cvss3) = none →
        (cleanRow r).cvss_score = toNumeric (cleanScore r.cvss2))
    ∧ (toNumeric (cleanScore r.cvss3) = none →
        toNumeric (cleanScore r.cvss2) = none →
        (cleanRow r).cvss_score = none)
    ∧ (r.cvss3 = some "N/A" → r.cvss2 = some "6.5" →
        (cleanRow r).cvss_score = some (13 / 2 : ℚ)) := by
  have hshape : (cleanRow r).cvss_score
      = match toNumeric (cleanScore r.cvss3) with
        | some q => some q
        | none => toNumeric (cleanScore r.cvss2) := rfl
  refine ⟨fun q h => ?_, fun h => ?_, fun h3 h2 => ?_, fun h3 h2 => ?_⟩
  · rw [hshape, h]
  · rw [hshape, h]
  · rw [hshape, h3, h2]
  · rw [hshape, h3, h2]
    have e3 : toNumeric (cleanScore (some "N/A")) = none := by decide
    have e2 : toNumeric (cleanScore (some "6.5"))
        = some (Rat.divInt 65 10) := by decide
    rw [e3, e2]
    rw [Rat.divInt_eq_div]
    norm_num

/-- Witness for C3 at a concrete row with v3.0 "N/A" and v2.0 "6.5". -/
theorem claim3_witness : (cleanRow recC3).cvss_score = some (13 / 2 : ℚ) :=
  (claim3_cvss_derivation recC3).2.2.2 rfl rfl

/-- C4 counterexample: on the one-row input `[recC4]` (Risk "None") the
severity filter eliminates every finding, yet the detailed view is empty
rather than the unfiltered one-row record set the claim promises —
`clean_data` filtered `self.df` in place, so the fallback of
`create_detailed_report` can only re-emit the already-filtered frame. -/
theorem claim4_counterexample :
    loadData [recC4] = [recC4]
    ∧ cleanData (loadData [recC4]) = []
    ∧ createDetailedReport (cleanData (loadData [recC4])) = [] := by
  refine ⟨by decide, by decide, ?_⟩
  have h : cleanData (loadData [recC4]) = [] := by decide
  rw [h]
  simp [createDetailedReport, securityFilter, sortDetailed_nil]

/-- C4 amended: when the severity filter eliminates every finding, the
detailed view's fallback re-emits the post-filter canonical set — which
is empty — so the view is an empty table, not the pre-filter rows. -/
theorem claim4_amended (rows : List RawRecord)
    (h : cleanData (loadData rows) = []) :
    createDetailedReport (cleanData (loadData rows)) = [] := by
  rw [h]
  simp [createDetailedReport, securityFilter, sortDetailed_nil]

/-- Witness for the amended C4 at a concrete severity-filtered input. -/
theorem claim4_witness :
    cleanData (loadData [recC4w]) = []
    ∧ createDetailedReport (cleanData (loadData [recC4w])) = [] :=
  ⟨by decide, claim4_amended [recC4w] (by decide)⟩

/-- C6: a record whose Name cell exactly equals a denylisted title — in
particular "Nessus Scan Information" — is removed by `load_data`
whatever its severity cell holds, and every row of the canonical set and
of the detailed view traces back to a loaded (hence non-denylisted)
record. -/
theorem claim6_denylist (rows : List RawRecord) (r : RawRecord) (t : String)
    (ht : t ∈ informationalFilters) (hn : r.name = some t) :
    r ∉ loadData rows
    ∧ (∀ f ∈ cleanData (loadData rows), ∃ r' ∈ loadData rows, f = cleanRow r')
    ∧ (∀ f ∈ createDetailedReport (cleanData (loadData rows)),
        ∃ r' ∈ loadData rows, f = presentFinding (cleanRow r')) := by
  refine ⟨fun hmem => ?_, fun f hf => exists_row_of_mem_cleanData hf,
    fun f hf => ?_⟩
  · have hk : keepRow r = true := (List.mem_filter.mp hmem).2
    simp only [keepRow, hn, Bool.not_eq_true'] at hk
    have htc : informationalFilters.contains t = true :=
      List.elem_eq_true_of_mem ht
    rw [htc] at hk
    exact Bool.noConfusion hk
  · obtain ⟨g, hg, rfl⟩ := mem_createDetailedReport hf
    obtain ⟨r', hr', rfl⟩ := exists_row_of_mem_cleanData hg
    exact ⟨r', hr', rfl⟩

/-- Witness for C6: the concrete "Nessus Scan Information" row, despite
its High severity cell, is not loaded. -/
theorem claim6_witness : recC6 ∉ loadData [recC6] :=
  (claim6_denylist [recC6] recC6 "Nessus Scan Information"
    (by decide) rfl).1

/-- C8: the weighted risk score over the canonical set equals the sum
over severities of weight times count, with Critical=4, High=3, Medium=2,
Low=1.  (The source's 'None' table entry and its lookup default both
weigh 0, so no other label contributes.) -/
theorem claim8_risk_score (rows : List RawRecord) :
    riskScore (cleanData (loadData rows))
      = 4 * sevCount (cleanData (loadData rows)) "Critical"
        + 3 * sevCount (cleanData (loadData rows)) "High"
        + 2 * sevCount (cleanData (loadData rows)) "Medium"
        + 1 * sevCount (cleanData (loadData rows)) "Low" := by
  rw [riskScore_eq_sum_weights, sum_weights_eq_census]

/-- C9: after the severity filter the `Risk != 'None'` guards of
`generate_summary` are vacuous, so total findings equal security-relevant
findings and total hosts equal hosts-with-issues, on every input. -/
theorem claim9_vacuous_guard (rows : List RawRecord) :
    securityFilter (cleanData (loadData rows)) = cleanData (loadData rows)
    ∧ totalFindings (cleanData (loadData rows))
        = securityFindings (cleanData (loadData rows))
    ∧ totalHosts (cleanData (loadData rows))
        = hostsWithIssues (cleanData (loadData rows)) := by
  have h := securityFilter_cleanData (loadData rows)
  refine ⟨h, ?_, ?_⟩
  · rw [totalFindings, securityFindings, h]
  · rw [totalHosts, hostsWithIssues, h]

/-- C10: a missing optional free-text cell (Name, Synopsis, Description,
Solution or CVE) is coerced to the literal string "nan" by the text
cleaning, and the detailed view presents that very text (collapsing and
truncation leave "nan" unchanged). -/
theorem claim10_nan_fields (r : RawRecord) :
    (r.name = none → (cleanRow r).name = "nan")
    ∧ (r.cve = none → (cleanRow r).cve = "nan")
    ∧ (r.synopsis = none → (cleanRow r).synopsis = "nan")
    ∧ (r.description = none → (cleanRow r).description = "nan"
        ∧ (presentFinding (cleanRow r)).description = "nan")
    ∧ (r.solution = none → (cleanRow r).solution = "nan"
        ∧ (presentFinding (cleanRow r)).solution = "nan") := by
  refine ⟨fun h => ?_, fun h => ?_, fun h => ?_, fun h => ?_, fun h => ?_⟩
  · show cleanText r.name = "nan"
    rw [h]; decide
  · show cleanText r.cve = "nan"
    rw [h]; decide
  · show cleanText r.synopsis = "nan"
    rw [h]; decide
  · have hd : (cleanRow r).description = "nan" := by
      show cleanText r.description = "nan"
      rw [h]; decide
    refine ⟨hd, ?_⟩
    show truncDescription (collapseBreaks (cleanRow r).description) = "nan"
    rw [hd]; decide
  · have hs : (cleanRow r).solution = "nan" := by
      show cleanText r.solution = "nan"
      rw [h]; decide
    refine ⟨hs, ?_⟩
    show collapseBreaks (cleanRow r).solution = "nan"
    rw [hs]; decide

/-- Witness for C10 at a row with every optional text cell missing. -/
theorem claim10_witness :
    (cleanRow recC10).name = "nan"
    ∧ (cleanRow recC10).description = "nan"
    ∧ (presentFinding (cleanRow recC10)).description = "nan" :=
  ⟨(claim10_nan_fields recC10).1 rfl,
   ((claim10_nan_fields recC10).2.2.2.1 rfl).1,
   ((claim10_nan_fields recC10).2.2.2.1 rfl).2⟩

/-- C7 counterexample: the claim reads "every embedded line break is
collapsed to a single space"; `specBreakToSpace` is that reading.  On the
surviving row whose description is "a\n\nb" the detailed view shows
"a b" — the pair of line breaks became one shared space — while the
claimed transformation yields "a  b". -/
theorem claim7_counterexample :
    (createDetailedReport (cleanData (loadData [recC7]))).map
        (fun f => f.description) = ["a b"]
    ∧ specBreakToSpace "a\n\nb" = "a  b"
    ∧ ("a b" : String) ≠ "a  b" := by
  refine ⟨?_, by decide, by decide⟩
  have h : cleanData (loadData [recC7]) = [cleanRow recC7] := by decide
  rw [h]
  have h2 : securityFilter [cleanRow recC7] = [cleanRow recC7] := by decide
  simp only [createDetailedReport, h2, List.isEmpty_cons, Bool.false_eq_true,
    if_false, sortDetailed_singleton, List.map_cons, List.map_nil]
  decide

/-- C7 amended: in the detailed view the Description and Solution first
have each pair of consecutive line breaks collapsed to a single space and
then every remaining line break replaced by a space (so a lone break
becomes one space, while a run of k breaks becomes ⌈k/2⌉ spaces); no line
break survives and the word sequence is unchanged; afterwards the
Description alone is truncated to 500 characters with "..." appended
exactly when its collapsed length exceeds 500. -/
theorem claim7_amended (f : Finding) :
    (presentFinding f).solution = collapseBreaks f.solution
    ∧ '\n' ∉ (collapseBreaks f.solution).data
    ∧ '\n' ∉ (presentFinding f).description.data
    ∧ words (collapseBreaks f.solution).data = words f.solution.data
    ∧ words (collapseBreaks f.description).data = words f.description.data
    ∧ ((collapseBreaks f.description).length ≤ 500 →
        (presentFinding f).description = collapseBreaks f.description)
    ∧ (500 < (collapseBreaks f.description).length →
        (presentFinding f).description
          = strTake (collapseBreaks f.description) 500 ++ "...") := by
  refine ⟨rfl, nl_not_mem_collapseBreaks _,
    nl_not_mem_truncDescription (nl_not_mem_collapseBreaks _),
    words_collapseBreaks _, words_collapseBreaks _, fun h => ?_, fun h => ?_⟩
  · show truncDescription (collapseBreaks f.description) = _
    rw [truncDescription, if_neg (by omega)]
  · show truncDescription (collapseBreaks f.description) = _
    rw [truncDescription, if_pos (by omega)]

/-- Witness for the amended C7: on a finding with one break in the
description and a double break in the solution, the view collapses both
and leaves the short description untruncated. -/
theorem claim7_witness :
    (collapseBreaks fndC7.description).length ≤ 500
    ∧ (presentFinding fndC7).description = collapseBreaks fndC7.description
    ∧ words (collapseBreaks fndC7.solution).data = words fndC7.solution.data :=
  ⟨by decide, (claim7_amended fndC7).2.2.2.2.2.1 (by decide),
   (claim7_amended fndC7).2.2.2.1⟩

end NessusReport
